import Mathlib

/-!
# Verification of the backloggd-ps5-pro-maintainer reconciliation and pagination code

Shallow embedding of the pure parts of the TypeScript sources:

* `src/services/comparison.ts` — `compareGameLists`, `normalizeTitle`
* `src/services/title-mapper.ts` — `TitleMapper` (bidirectional alias lookup)
* `src/services/manual-additions.ts` — `ManualAdditionsManager.isManuallyAdded`
* `src/scrapers/pagination-helpers.ts` — `extractTotalCount` (text part),
  `detectPaginationType`, `navigateToNextPage` (URL computation part)
* `src/scrapers/backloggd.ts` — the pagination loop of `scrapeBackloggdList`

JavaScript strings are modelled as Lean `String` / `List Char`.  Character
classes (`\d`, `\s`, `[a-z0-9]`, `toLowerCase`) are modelled on code points;
the sources only rely on their ASCII behaviour and the embedding notes the
code-point ranges used.
-/

namespace PS5Pro

/-- JS `\d` character class: the ASCII digits, code points 48–57. -/
def isDigitChar (c : Char) : Bool :=
  48 ≤ c.toNat && c.toNat ≤ 57

/-- JS `\s` character class (and the class trimmed by `String.prototype.trim`),
restricted to the whitespace code points that can actually reach these
functions: space, tab, LF, VT, FF, CR, NBSP. -/
def jsWhitespace (c : Char) : Bool :=
  c.toNat == 32 || c.toNat == 9 || c.toNat == 10 || c.toNat == 11 ||
  c.toNat == 12 || c.toNat == 13 || c.toNat == 160

/-- JS `String.prototype.toLowerCase`, character-wise, on the ASCII range
(code points 65–90 are shifted by 32); other characters are unchanged. -/
def lowerChar (c : Char) : Char :=
  if 65 ≤ c.toNat && c.toNat ≤ 90 then Char.ofNat (c.toNat + 32) else c

/-- JS `toLowerCase` on a whole string, character-wise. -/
def lowerStr (s : String) : String :=
  ⟨s.data.map lowerChar⟩

/-- The character class kept by `normalizeTitle`'s
`.replace(/[^a-z0-9\s]/g, '')`: lowercase ASCII letters (97–122),
digits (48–57) and whitespace. -/
def keepChar (c : Char) : Bool :=
  (97 ≤ c.toNat && c.toNat ≤ 122) || (48 ≤ c.toNat && c.toNat ≤ 57) ||
    jsWhitespace c

/-- The step `.replace(/\s+/g, ' ')`: every maximal run of whitespace characters is
replaced by one space.  A whitespace character merges with the run to its
right, which after collapsing begins with `' '` exactly when the rest of the
string began with whitespace. -/
def collapseWS : List Char → List Char
  | [] => []
  | c :: rest =>
    let r := collapseWS rest
    if jsWhitespace c then
      match r with
      | d :: _ => if d = ' ' then r else ' ' :: r
      | [] => [' ']
    else c :: r

/-- Left half of `String.prototype.trim`: drop leading whitespace. -/
def trimLeft (l : List Char) : List Char :=
  l.dropWhile jsWhitespace

/-- Right half of `String.prototype.trim`: drop trailing whitespace. -/
def trimRight : List Char → List Char
  | [] => []
  | c :: rest =>
    match trimRight rest with
    | [] => if jsWhitespace c then [] else [c]
    | r => c :: r

/-- Lists without two adjacent whitespace characters. -/
def noAdjWS : List Char → Bool
  | a :: b :: rest => !(jsWhitespace a && jsWhitespace b) && noAdjWS (b :: rest)
  | _ => true

/-- The function `normalizeTitle` from `src/services/comparison.ts` (lines 64–70), on the
character list: `toLowerCase`, then `.replace(/[^a-z0-9\s]/g, '')`, then
`.replace(/\s+/g, ' ')`, then `.trim()`. -/
def normalizeList (l : List Char) : List Char :=
  trimRight (trimLeft (collapseWS ((l.map lowerChar).filter keepChar)))

/-- The function `normalizeTitle` from `src/services/comparison.ts` (lines 64–70). -/
def normalizeTitle (s : String) : String :=
  ⟨normalizeList s.data⟩

example : normalizeTitle "Grand Theft Auto V" = "grand theft auto v" := by rfl
example : normalizeTitle "  Call of Duty: Black  Ops 6!? " = "call of duty black ops 6" := by rfl
example : normalizeTitle "" = "" := by rfl

/-! ## Data model (`src/types/game.ts`)

Only the fields the verified functions read (`title`, `url`) are carried;
`platform`, `id` and `releaseDate` are never inspected by the comparison or
the deduplication. -/

/-- The `Game` interface of `src/types/game.ts` (`title: string`,
`url?: string`; the unread fields are omitted). -/
structure Game where
  title : String
  url : Option String
deriving DecidableEq

/-- The `ComparisonResult` interface of `src/types/game.ts`. -/
structure ComparisonResult where
  gamesToAdd : List Game
  gamesToRemove : List Game
  alreadyInSync : List Game
deriving DecidableEq

/-! ## JS `Map` / `Set` model

`Map.prototype.set` updates an existing key in place or appends a new one;
`get` returns the stored value, `has` tests key presence.  `Set.prototype.add`
inserts a value not already present. -/

/-- JS `Map.prototype.set` on an association list keyed by strings. -/
def jsMapSet {α : Type} (m : List (String × α)) (k : String) (v : α) :
    List (String × α) :=
  match m with
  | [] => [(k, v)]
  | (k', v') :: rest =>
    if k' = k then (k', v) :: rest else (k', v') :: jsMapSet rest k v

/-- JS `Map.prototype.get`. -/
def jsMapGet {α : Type} (m : List (String × α)) (k : String) : Option α :=
  (m.find? (fun p => p.1 = k)).map (·.2)

/-- JS `Map.prototype.has`. -/
def jsMapHas {α : Type} (m : List (String × α)) (k : String) : Bool :=
  m.any (fun p => p.1 = k)

/-- JS `Set.prototype.add` on a list of strings. -/
def jsSetAdd (s : List String) (k : String) : List String :=
  if s.contains k then s else s ++ [k]

/-! ## `compareGameLists` (`src/services/comparison.ts`, lines 13–62) -/

/-- The normalized lookup map built by the two `forEach`/`set` loops at lines
18–24 of `src/services/comparison.ts`: each game is stored under
`normalizeTitle(game.title)`. -/
def buildTitleMap (games : List Game) : List (String × Game) :=
  games.foldl (fun m g => jsMapSet m (normalizeTitle g.title) g) []

/-- The function `compareGameLists` from `src/services/comparison.ts` (lines 13–62).
The three `forEach`+`push` loops each traverse one input list and push the
games whose normalized title is (or is not) a key of the other side's map;
they are filters over the input lists.  No title mapping and no manual
additions are consulted anywhere in this function. -/
def compareGameLists (psStoreGames backloggdGames : List Game) :
    ComparisonResult :=
  let psStoreMap := buildTitleMap psStoreGames
  let backloggdMap := buildTitleMap backloggdGames
  let gamesToAdd := psStoreGames.filter
    (fun g => !(jsMapHas backloggdMap (normalizeTitle g.title)))
  let gamesToRemove := backloggdGames.filter
    (fun g => !(jsMapHas psStoreMap (normalizeTitle g.title)))
  let alreadyInSync := psStoreGames.filter
    (fun g => jsMapHas backloggdMap (normalizeTitle g.title))
  { gamesToAdd := gamesToAdd
    gamesToRemove := gamesToRemove
    alreadyInSync := alreadyInSync }

/-! ## `TitleMapper` (`src/services/title-mapper.ts`) -/

/-- The `GameTitleMapping` interface of `src/types/game.ts`
(`psStoreTitle`, `backloggdTitle`; the optional `notes` field is unread). -/
structure GameTitleMapping where
  psStoreTitle : String
  backloggdTitle : String
deriving DecidableEq

/-- The `psStoreToBackloggd` map built by `TitleMapper.loadMappings`
(lines 36–42): key `mapping.psStoreTitle.toLowerCase()`, value
`mapping.backloggdTitle`. -/
def psStoreToBackloggd (mappings : List GameTitleMapping) :
    List (String × String) :=
  mappings.foldl (fun m mp => jsMapSet m (lowerStr mp.psStoreTitle) mp.backloggdTitle) []

/-- The `backloggdToPsStore` map built by `TitleMapper.loadMappings`
(lines 36–42): key `mapping.backloggdTitle.toLowerCase()`, value
`mapping.psStoreTitle`. -/
def backloggdToPsStore (mappings : List GameTitleMapping) :
    List (String × String) :=
  mappings.foldl (fun m mp => jsMapSet m (lowerStr mp.backloggdTitle) mp.psStoreTitle) []

/-- JS truthiness fallback `x || title` at lines 57/66 of
`src/services/title-mapper.ts`: `undefined` and the empty string are falsy. -/
def jsOrElse (x : Option String) (title : String) : String :=
  match x with
  | some v => if v = "" then title else v
  | none => title

/-- Method `TitleMapper.mapPsStoreToBackloggd` (lines 55–58):
`this.psStoreToBackloggd.get(psStoreTitle.toLowerCase()) || psStoreTitle`. -/
def mapPsStoreToBackloggd (mappings : List GameTitleMapping)
    (psStoreTitle : String) : String :=
  jsOrElse (jsMapGet (psStoreToBackloggd mappings) (lowerStr psStoreTitle)) psStoreTitle

/-- Method `TitleMapper.mapBackloggdToPsStore` (lines 64–67):
`this.backloggdToPsStore.get(backloggdTitle.toLowerCase()) || backloggdTitle`. -/
def mapBackloggdToPsStore (mappings : List GameTitleMapping)
    (backloggdTitle : String) : String :=
  jsOrElse (jsMapGet (backloggdToPsStore mappings) (lowerStr backloggdTitle)) backloggdTitle

/-! ## `ManualAdditionsManager` (`src/services/manual-additions.ts`) -/

/-- The `ManualGameAddition` interface of `src/types/game.ts`
(`backloggdTitle`; the `reason` field is unread). -/
structure ManualGameAddition where
  backloggdTitle : String
deriving DecidableEq

/-- The `manualGames` set built by `ManualAdditionsManager.loadAdditions`
(lines 36–38): each `addition.backloggdTitle.toLowerCase()` is added. -/
def manualGames (additions : List ManualGameAddition) : List String :=
  additions.foldl (fun s a => jsSetAdd s (lowerStr a.backloggdTitle)) []

/-- Method `ManualAdditionsManager.isManuallyAdded` (lines 54–56):
`this.manualGames.has(backloggdTitle.toLowerCase())`. -/
def isManuallyAdded (additions : List ManualGameAddition)
    (backloggdTitle : String) : Bool :=
  (manualGames additions).contains (lowerStr backloggdTitle)

/-! ## `extractTotalCount` (`src/scrapers/pagination-helpers.ts`, lines 15–58)

The selector iteration is page I/O; the numeric extraction applied to a probe
text (lines 31–48) is pure and modelled here.  A result of `none` corresponds
to the `Infinity` fallback of line 57. -/

/-- Value of a string of ASCII digits, as computed by
`Number.parseInt(·, 10)` on a digit-only match. -/
def parseDigits (ds : List Char) : Nat :=
  ds.foldl (fun n c => n * 10 + (c.toNat - 48)) 0

/-- One attempt of the regex `/(\d+)\s+(?:de|of)\s+(\d+)/i` anchored at the
head of the list: digits, whitespace, `de`/`of` (case-insensitive),
whitespace, digits; yields the second number (`match[2]`). -/
def tryNofM (l : List Char) : Option Nat :=
  let d1 := l.takeWhile isDigitChar
  if d1.isEmpty then none else
  let r1 := l.dropWhile isDigitChar
  if (r1.takeWhile jsWhitespace).isEmpty then none else
  match r1.dropWhile jsWhitespace with
  | a :: b :: r3 =>
    if (lowerChar a = 'd' && lowerChar b = 'e') ||
        (lowerChar a = 'o' && lowerChar b = 'f') then
      if (r3.takeWhile jsWhitespace).isEmpty then none else
      let r4 := r3.dropWhile jsWhitespace
      let d2 := r4.takeWhile isDigitChar
      if d2.isEmpty then none else some (parseDigits d2)
    else none
  | _ => none

/-- Leftmost match of `/(\d+)\s+(?:de|of)\s+(\d+)/i` (line 33), scanning
positions left to right. -/
def scanNofM : List Char → Option Nat
  | [] => none
  | c :: rest =>
    match tryNofM (c :: rest) with
    | some n => some n
    | none => scanNofM rest

/-- Case-insensitive literal match of a lowercase pattern against the head of
the list. -/
def caselessMatches : List Char → List Char → Bool
  | [], _ => true
  | _ :: _, [] => false
  | p :: ps, c :: cs => p = lowerChar c && caselessMatches ps cs

/-- One attempt of the regex `/(\d+)\s+games/i` anchored at the head of the
list; yields the number (`simpleMatch[1]`). -/
def tryNGames (l : List Char) : Option Nat :=
  let d1 := l.takeWhile isDigitChar
  if d1.isEmpty then none else
  let r1 := l.dropWhile isDigitChar
  if (r1.takeWhile jsWhitespace).isEmpty then none else
  if caselessMatches ['g', 'a', 'm', 'e', 's'] (r1.dropWhile jsWhitespace) then
    some (parseDigits d1)
  else none

/-- Leftmost match of `/(\d+)\s+games/i` (line 42). -/
def scanNGames : List Char → Option Nat
  | [] => none
  | c :: rest =>
    match tryNGames (c :: rest) with
    | some n => some n
    | none => scanNGames rest

/-- The numeric extraction of `extractTotalCount` applied to one probe text
(lines 31–48 of `src/scrapers/pagination-helpers.ts`): first the
`N de/of M` pattern (second number wins), then the simple `N games`
pattern. -/
def extractTotalFromText (text : String) : Option Nat :=
  match scanNofM text.data with
  | some n => some n
  | none => scanNGames text.data

/-! ## `detectPaginationType` and `navigateToNextPage`
(`src/scrapers/pagination-helpers.ts`) -/

/-- The two pagination strategies (`'button' | 'url'`). -/
inductive PaginationStrategy where
  | button
  | url
deriving DecidableEq

/-- Substring occurrence on character lists: `pat` occurs at some position. -/
def listContains (pat : List Char) : List Char → Bool
  | [] => pat.isEmpty
  | c :: rest => pat.isPrefixOf (c :: rest) || listContains pat rest

/-- JS `String.prototype.includes`. -/
def containsSub (s pat : String) : Bool :=
  listContains pat.data s.data

/-- Helper for the anchored regex `/\/\d+\/?$/`: the reversed URL with an
optional leading `/` (the regex's optional trailing slash) removed. -/
def revStripSlash (l : List Char) : List Char :=
  if l.reverse.head? = some '/' then l.reverse.tail else l.reverse

/-- The regex test `/\/\d+\/?$/.test(currentUrl)` (line 74): the URL ends
with `/`, one or more digits, and an optional trailing `/`. -/
def pathPaginationTest (l : List Char) : Bool :=
  !((revStripSlash l).takeWhile isDigitChar).isEmpty &&
    (((revStripSlash l).dropWhile isDigitChar).head? = some '/')

/-- The function `detectPaginationType` (lines 63–101).  The button probing is page I/O,
abstracted by `nextButtonVisible`; both the visible-button branch and the
final default return `'button'`. -/
def detectPaginationType (currentUrl : String) (nextButtonVisible : Bool) :
    PaginationStrategy :=
  if containsSub currentUrl "page=" || containsSub currentUrl "offset=" then
    .url
  else if pathPaginationTest currentUrl.data then
    .url
  else if nextButtonVisible then
    .button
  else
    .button

/-- JS `String.prototype.replace` with the non-global regex `LIT\d+` (where
`LIT` is a literal such as `page=` or `offset=`): the leftmost occurrence of
the literal followed by at least one digit is replaced by the literal and
`newNum`; if there is no match the string is unchanged. -/
def replaceTokenNum (lit newNum : List Char) : List Char → List Char
  | [] => []
  | c :: rest =>
    if lit.isPrefixOf (c :: rest) &&
        !(((c :: rest).drop lit.length).takeWhile isDigitChar).isEmpty then
      lit ++ newNum ++ ((c :: rest).drop lit.length).dropWhile isDigitChar
    else
      c :: replaceTokenNum lit newNum rest

/-- The replacement `currentUrl.replace(/\/(\d+)\/?$/, `/${nextPage}`)` (line 174): the
matched span `/<digits>[/]` at the end is replaced by the replacement text
`newNum` (which carries its own leading `/`). -/
def replaceTrailingPathNum (l newNum : List Char) : List Char :=
  (((revStripSlash l).dropWhile isDigitChar).tail).reverse ++ newNum

/-- The next-URL computation of the `'url'` branch of `navigateToNextPage`
(`src/scrapers/pagination-helpers.ts`, lines 154–181), with
`nextPage = currentPage + 1`:

* a URL containing `page=` gets its first `page=<digits>` replaced with
  `page=<nextPage>`;
* otherwise a URL containing `offset=` gets its first `offset=<digits>`
  replaced with `offset=<nextPage * 24>` (24 items per page assumed);
* otherwise a URL ending in `/<digits>[/]` gets that trailing segment
  replaced with `/<nextPage>`;
* otherwise `page=<nextPage>` is appended as a query parameter. -/
def computeNextUrl (currentUrl : String) (currentPage : Nat) : String :=
  let nextPage := currentPage + 1
  if containsSub currentUrl "page=" then
    ⟨replaceTokenNum "page=".data (toString nextPage).data currentUrl.data⟩
  else if containsSub currentUrl "offset=" then
    ⟨replaceTokenNum "offset=".data (toString (nextPage * 24)).data currentUrl.data⟩
  else if pathPaginationTest currentUrl.data then
    ⟨replaceTrailingPathNum currentUrl.data ("/" ++ toString nextPage).data⟩
  else
    currentUrl ++ (if containsSub currentUrl "?" then "&" else "?") ++
      "page=" ++ toString nextPage

/-! ## The pagination loop of `scrapeBackloggdList`
(`src/scrapers/backloggd.ts`, lines 129–200)

Page I/O is abstracted: `pages n` is the list of entries the page extraction
(`page.$$eval`) yields while the loop is on page counter `n`, and `nav n` is
the success of `navigateToNextPage` called with `currentPage = n`.
`totalGames` is `none` for the `Infinity` fallback of `extractTotalCount`. -/

/-- The duplicate/empty-title filter of lines 163–169:

```
if (game.title === '') return false;
if (game.url && seenUrls.has(game.url)) return false;
if (game.url) seenUrls.add(game.url);
return true;
```

The filter callback mutates `seenUrls`, so it is threaded explicitly;
the result is the kept games and the updated `seenUrls`. -/
def filterNewGames : List Game → List String → List Game × List String
  | [], seenUrls => ([], seenUrls)
  | g :: rest, seenUrls =>
    if g.title = "" then filterNewGames rest seenUrls
    else
      match g.url with
      | some u =>
        if seenUrls.contains u then filterNewGames rest seenUrls
        else
          let p := filterNewGames rest (jsSetAdd seenUrls u)
          (g :: p.1, p.2)
      | none =>
        let p := filterNewGames rest seenUrls
        (g :: p.1, p.2)

/-- The completion check of line 177:
`totalGames !== Infinity && allGames.length >= totalGames`. -/
def completionReached (totalGames : Option Nat) (collected : Nat) : Bool :=
  match totalGames with
  | some t => t ≤ collected
  | none => false

/-- The `while (hasNextPage)` loop of `scrapeBackloggdList` (lines 142–195).
One iteration: extract and filter the current page's games, append them,
stop if the expected total is reached, otherwise navigate; on successful
navigation increment `currentPage`, and stop as soon as `currentPage > 50`
(the safety ceiling check of lines 190–194).  Returns the collected games
and the final page counter. -/
def scrapeLoop (pages : Nat → List Game) (nav : Nat → Bool)
    (totalGames : Option Nat) (allGames : List Game) (seenUrls : List String)
    (currentPage : Nat) : List Game × Nat :=
  let step := filterNewGames (pages currentPage) seenUrls
  let allGames' := allGames ++ step.1
  if completionReached totalGames allGames'.length then
    (allGames', currentPage)
  else if nav currentPage then
    if currentPage + 1 > 50 then
      (allGames', currentPage + 1)
    else
      scrapeLoop pages nav totalGames allGames' step.2 (currentPage + 1)
  else
    (allGames', currentPage)
termination_by 51 - currentPage
decreasing_by
  simp_wf
  omega

/-- The function `scrapeBackloggdList` (lines 112–213), pure part: the loop starts with
`allGames = []`, `seenUrls = ∅`, `currentPage = 1`, and the collected games
are finally filtered for empty titles (line 198). -/
def scrapeBackloggdList (pages : Nat → List Game) (nav : Nat → Bool)
    (totalGames : Option Nat) : List Game × Nat :=
  let result := scrapeLoop pages nav totalGames [] [] 1
  (result.1.filter (fun g => !(g.title = "")), result.2)

/-- The identity key of the spec's glossary: the value deduplication is keyed
on — the entry's URL when present, else its normalized title. -/
def identityKey (g : Game) : String :=
  match g.url with
  | some u => u
  | none => normalizeTitle g.title

/-! ### Structural facts about `normalizeList`, towards idempotence -/

theorem keepChar_of_ws {c : Char} (h : jsWhitespace c = true) : keepChar c = true := by
  simp [keepChar, h]

theorem keepChar_space : keepChar ' ' = true := by decide

theorem lowerChar_eq_self_of_keep {c : Char} (h : keepChar c = true) :
    lowerChar c = c := by
  simp only [keepChar, jsWhitespace, Bool.or_eq_true, Bool.and_eq_true,
    decide_eq_true_eq, Nat.beq_eq_true_eq] at h
  simp only [lowerChar, Bool.and_eq_true, decide_eq_true_eq]
  rw [if_neg]
  omega

theorem mem_trimLeft {a : Char} {l : List Char} (h : a ∈ trimLeft l) : a ∈ l :=
  (List.dropWhile_sublist jsWhitespace).subset h

theorem mem_trimRight {a : Char} : ∀ {l : List Char}, a ∈ trimRight l → a ∈ l := by
  intro l
  induction l with
  | nil => simp [trimRight]
  | cons c rest ih =>
    simp only [trimRight]
    cases hr : trimRight rest with
    | nil =>
      by_cases hws : jsWhitespace c = true <;> simp [hws] <;> intro h <;> simp [h]
    | cons d r =>
      intro h
      rcases List.mem_cons.mp h with h | h
      · exact List.mem_cons.mpr (Or.inl h)
      · exact List.mem_cons.mpr (Or.inr (ih (hr ▸ h)))

theorem mem_collapseWS {a : Char} : ∀ {l : List Char},
    a ∈ collapseWS l → a = ' ' ∨ (a ∈ l ∧ jsWhitespace a = false) := by
  intro l
  induction l with
  | nil => simp [collapseWS]
  | cons c rest ih =>
    simp only [collapseWS]
    by_cases hws : jsWhitespace c = true
    · simp only [hws, if_true]
      cases hr : collapseWS rest with
      | nil =>
        intro h
        simp at h
        exact Or.inl h
      | cons d r =>
        dsimp only
        by_cases hd : d = ' '
        · rw [if_pos hd]
          intro h
          rcases ih (hr ▸ h) with h' | h'
          · exact Or.inl h'
          · exact Or.inr ⟨List.mem_cons.mpr (Or.inr h'.1), h'.2⟩
        · rw [if_neg hd]
          intro h
          rcases List.mem_cons.mp h with h' | h'
          · exact Or.inl h'
          · rcases ih (hr ▸ h') with h'' | h''
            · exact Or.inl h''
            · exact Or.inr ⟨List.mem_cons.mpr (Or.inr h''.1), h''.2⟩
    · simp only [hws, if_false]
      intro h
      rcases List.mem_cons.mp h with h' | h'
      · exact Or.inr ⟨List.mem_cons.mpr (Or.inl h'),
        by simp [h', Bool.not_eq_true] at hws ⊢; exact hws⟩
      · rcases ih h' with h'' | h''
        · exact Or.inl h''
        · exact Or.inr ⟨List.mem_cons.mpr (Or.inr h''.1), h''.2⟩

theorem noAdjWS_tail {c : Char} {l : List Char} (h : noAdjWS (c :: l) = true) :
    noAdjWS l = true := by
  cases l with
  | nil => rfl
  | cons d r =>
    simp only [noAdjWS, Bool.and_eq_true] at h
    exact h.2

theorem ws_collapseWS {a : Char} {l : List Char} (h : a ∈ collapseWS l)
    (hws : jsWhitespace a = true) : a = ' ' := by
  rcases mem_collapseWS h with h' | h'
  · exact h'
  · rw [h'.2] at hws; cases hws

theorem collapseWS_head_not_space {l : List Char} {d : Char} {r : List Char}
    (h : collapseWS l = d :: r) (hd : d ≠ ' ') : jsWhitespace d = false := by
  have : d ∈ collapseWS l := h ▸ List.mem_cons_self d r
  by_cases hws : jsWhitespace d = true
  · exact absurd (ws_collapseWS this hws) hd
  · simpa using hws

theorem noAdjWS_collapseWS : ∀ l : List Char, noAdjWS (collapseWS l) = true := by
  intro l
  induction l with
  | nil => rfl
  | cons c rest ih =>
    simp only [collapseWS]
    by_cases hws : jsWhitespace c = true
    · simp only [hws, if_true]
      cases hr : collapseWS rest with
      | nil => rfl
      | cons d r =>
        dsimp only
        by_cases hd : d = ' '
        · rw [if_pos hd]
          rw [hr] at ih; exact ih
        · rw [if_neg hd]
          have hdws : jsWhitespace d = false := collapseWS_head_not_space hr hd
          rw [hr] at ih
          simp only [noAdjWS, Bool.and_eq_true, Bool.not_eq_true']
          exact ⟨by simp [hdws], ih⟩
    · simp only [hws, if_false]
      cases hr : collapseWS rest with
      | nil => rfl
      | cons d r =>
        rw [hr] at ih
        simp only [noAdjWS, Bool.and_eq_true, Bool.not_eq_true']
        refine ⟨?_, ih⟩
        simp only [Bool.not_eq_true] at hws
        simp [hws]

theorem collapseWS_eq_self : ∀ {l : List Char},
    (∀ a ∈ l, jsWhitespace a = true → a = ' ') → noAdjWS l = true →
    collapseWS l = l := by
  intro l
  induction l with
  | nil => intro _ _; rfl
  | cons c rest ih =>
    intro hws hadj
    have hrest : collapseWS rest = rest :=
      ih (fun a ha h => hws a (List.mem_cons.mpr (Or.inr ha)) h) (noAdjWS_tail hadj)
    simp only [collapseWS, hrest]
    by_cases hc : jsWhitespace c = true
    · have hcs : c = ' ' := hws c (List.mem_cons_self c rest) hc
      cases rest with
      | nil => simp [hcs]
      | cons d r =>
        have hd : jsWhitespace d = false := by
          simp only [noAdjWS, Bool.and_eq_true, Bool.not_eq_true'] at hadj
          rcases hadj with ⟨h1, _⟩
          rw [hc] at h1
          simpa using h1
        have hd' : d ≠ ' ' := by
          intro h; rw [h] at hd; simp [jsWhitespace] at hd
        simp [hc, hd', hcs]
    · simp [hc]

theorem trimRight_head : ∀ {l : List Char} {a : Char} {r : List Char},
    trimRight l = a :: r → ∃ t, l = a :: t := by
  intro l
  induction l with
  | nil => intro a r h; simp [trimRight] at h
  | cons c rest ih =>
    intro a r h
    simp only [trimRight] at h
    cases hr : trimRight rest with
    | nil =>
      rw [hr] at h
      by_cases hws : jsWhitespace c = true
      · simp [hws] at h
      · simp [hws] at h
        exact ⟨rest, by rw [h.1]⟩
    | cons d r' =>
      rw [hr] at h
      rcases List.cons.injEq .. ▸ h with ⟨h1, _⟩
      exact ⟨rest, by rw [h1]⟩

theorem noAdjWS_trimRight : ∀ {l : List Char}, noAdjWS l = true →
    noAdjWS (trimRight l) = true := by
  intro l
  induction l with
  | nil => intro _; rfl
  | cons c rest ih =>
    intro h
    simp only [trimRight]
    cases hr : trimRight rest with
    | nil =>
      by_cases hws : jsWhitespace c = true <;> simp [hws, noAdjWS]
    | cons d r' =>
      have hrest : noAdjWS (d :: r') = true := hr ▸ ih (noAdjWS_tail h)
      obtain ⟨t, ht⟩ := trimRight_head hr
      rw [ht] at h
      simp only [noAdjWS, Bool.and_eq_true] at h ⊢
      exact ⟨h.1, hrest⟩

theorem noAdjWS_dropWhile {p : Char → Bool} : ∀ {l : List Char},
    noAdjWS l = true → noAdjWS (l.dropWhile p) = true := by
  intro l
  induction l with
  | nil => intro _; rfl
  | cons c rest ih =>
    intro h
    rw [List.dropWhile_cons]
    by_cases hp : p c = true
    · simp only [hp, if_true]
      exact ih (noAdjWS_tail h)
    · simp only [hp, if_false]
      exact h

theorem trimRight_idem : ∀ l : List Char, trimRight (trimRight l) = trimRight l := by
  intro l
  induction l with
  | nil => rfl
  | cons c rest ih =>
    simp only [trimRight]
    cases hr : trimRight rest with
    | nil =>
      by_cases hws : jsWhitespace c = true
      · simp [hws, trimRight]
      · simp [hws, trimRight]
    | cons d r' =>
      rw [hr] at ih
      dsimp only
      rw [trimRight, ih]

theorem dropWhile_head_false {p : Char → Bool} : ∀ {l : List Char} {a : Char}
    {r : List Char}, l.dropWhile p = a :: r → p a = false := by
  intro l
  induction l with
  | nil => intro a r h; simp at h
  | cons c rest ih =>
    intro a r h
    rw [List.dropWhile_cons] at h
    by_cases hp : p c = true
    · simp only [hp, if_true] at h
      exact ih h
    · simp only [hp, if_false] at h
      rcases List.cons.injEq .. ▸ h with ⟨h1, _⟩
      rw [← h1]
      simpa using hp

theorem map_eq_self_of_mem {f : Char → Char} : ∀ {l : List Char},
    (∀ a ∈ l, f a = a) → l.map f = l := by
  intro l
  induction l with
  | nil => intro _; rfl
  | cons c rest ih =>
    intro h
    simp only [List.map_cons]
    rw [h c (List.mem_cons_self c rest), ih (fun a ha => h a (List.mem_cons.mpr (Or.inr ha)))]

/-- Every character of a normalized title is a kept character, fixed by
lowercasing, and its only whitespace is `' '`. -/
theorem normalizeList_chars {a : Char} {l : List Char} (h : a ∈ normalizeList l) :
    keepChar a = true ∧ lowerChar a = a ∧ (jsWhitespace a = true → a = ' ') := by
  have hu : a ∈ collapseWS ((l.map lowerChar).filter keepChar) :=
    mem_trimLeft (mem_trimRight h)
  rcases mem_collapseWS hu with h' | h'
  · subst h'
    exact ⟨keepChar_space, lowerChar_eq_self_of_keep keepChar_space, fun _ => rfl⟩
  · have hk : keepChar a = true := (List.mem_filter.mp h'.1).2
    exact ⟨hk, lowerChar_eq_self_of_keep hk, fun hws => by rw [h'.2] at hws; cases hws⟩

theorem noAdjWS_normalizeList (l : List Char) : noAdjWS (normalizeList l) = true :=
  noAdjWS_trimRight (noAdjWS_dropWhile (noAdjWS_collapseWS _))

theorem trimLeft_normalizeList (l : List Char) :
    trimLeft (normalizeList l) = normalizeList l := by
  unfold normalizeList
  cases hr : trimRight (trimLeft (collapseWS ((l.map lowerChar).filter keepChar))) with
  | nil => rfl
  | cons d r' =>
    obtain ⟨t, ht⟩ := trimRight_head hr
    have hd : jsWhitespace d = false := dropWhile_head_false (p := jsWhitespace) ht
    simp [trimLeft, List.dropWhile_cons, hd]

theorem normalizeList_idem (l : List Char) :
    normalizeList (normalizeList l) = normalizeList l := by
  have hchars := fun a (ha : a ∈ normalizeList l) => normalizeList_chars ha
  have hmap : (normalizeList l).map lowerChar = normalizeList l :=
    map_eq_self_of_mem (fun a ha => (hchars a ha).2.1)
  have hfilter : (normalizeList l).filter keepChar = normalizeList l :=
    List.filter_eq_self.mpr (fun a ha => (hchars a ha).1)
  have hcoll : collapseWS (normalizeList l) = normalizeList l :=
    collapseWS_eq_self (fun a ha => (hchars a ha).2.2) (noAdjWS_normalizeList l)
  conv_lhs => rw [normalizeList]
  rw [hmap, hfilter, hcoll, trimLeft_normalizeList]
  have : normalizeList l = trimRight (trimLeft (collapseWS ((l.map lowerChar).filter keepChar))) := rfl
  rw [this, trimRight_idem]


section SanityExamples

example :
    compareGameLists [⟨"Grand Theft Auto V", none⟩] [⟨"GTA V", none⟩] =
      ⟨[⟨"Grand Theft Auto V", none⟩], [⟨"GTA V", none⟩], []⟩ := by decide

example :
    mapPsStoreToBackloggd [⟨"Grand Theft Auto V", "GTA V"⟩] "Grand Theft Auto V" =
      "GTA V" := by decide

example : isManuallyAdded [⟨"Call of Duty: Black Ops 6"⟩] "call of duty: black ops 6" = true := by
  decide

example : extractTotalFromText "Showing 24 of 50 results" = some 50 := by decide
example : extractTotalFromText "Mostrando 24 de 195 resultados" = some 195 := by decide
example : extractTotalFromText "199 Games" = some 199 := by decide
example : extractTotalFromText "no numbers here" = none := by decide

example :
    computeNextUrl "https://store.playstation.com/es-es/category/abc/3" 3 =
      "https://store.playstation.com/es-es/category/abc/4" := by decide
example :
    computeNextUrl "https://store.playstation.com/es-es/category/abc/3" 7 =
      "https://store.playstation.com/es-es/category/abc/8" := by decide
example :
    computeNextUrl "https://ex.com/list?offset=0" 5 = "https://ex.com/list?offset=144" := by
  decide
example : computeNextUrl "https://ex.com/list?page=3" 3 = "https://ex.com/list?page=4" := by
  decide
example : computeNextUrl "https://ex.com/list" 1 = "https://ex.com/list?page=2" := by decide
example :
    detectPaginationType "https://store.playstation.com/es-es/category/abc/3" false = .url := by
  decide
example : detectPaginationType "https://ex.com/list" true = .button := by decide

example :
    scrapeBackloggdList (fun _ => [⟨"Mario", none⟩, ⟨"Mario", none⟩]) (fun _ => false) none =
      ([⟨"Mario", none⟩, ⟨"Mario", none⟩], 1) := by
  rw [scrapeBackloggdList, scrapeLoop]
  decide

end SanityExamples

/-! ## Claims

Each claim of the specification is settled by one theorem below. -/

/-- C9: `normalizeTitle` is a total function on strings (it is defined for
every `String` by construction) and idempotent —
`normalize(normalize(x)) = normalize(x)` for every string `x` — and it maps
the empty string to the empty string. -/
theorem normalizeTitle_idempotent :
    (∀ x : String, normalizeTitle (normalizeTitle x) = normalizeTitle x) ∧
      normalizeTitle "" = "" := by
  constructor
  · intro x
    show (⟨normalizeList (normalizeList x.data)⟩ : String) = ⟨normalizeList x.data⟩
    rw [normalizeList_idem]
  · rfl

/-- C8: the total-count extraction of `extractTotalCount` applied to the probe
text `"Showing 24 of 50 results"` yields 50 (the second number of the
`N of/de M` pattern), and applied to `"199 Games"` yields 199 (the single
count before the unit word). -/
theorem extractTotalCount_probe_examples :
    extractTotalFromText "Showing 24 of 50 results" = some 50 ∧
      extractTotalFromText "199 Games" = some 199 := by
  constructor <;> decide

/-- C1 (code evaluated at the failing input): with the alias table containing
`{psStoreTitle: "Grand Theft Auto V", backloggdTitle: "GTA V"}`,
`TitleMapper.mapPsStoreToBackloggd` does map `"Grand Theft Auto V"` to
`"GTA V"`, yet `compareGameLists` — which never consults the mapper — puts
the source entry into `gamesToAdd` and the target entry into
`gamesToRemove`, leaving `alreadyInSync` empty, instead of the specified
`inSync = [{title: "Grand Theft Auto V"}]`, `toAdd = []`, `toRemove = []`. -/
theorem compareGameLists_ignores_alias_table :
    mapPsStoreToBackloggd [⟨"Grand Theft Auto V", "GTA V"⟩] "Grand Theft Auto V" =
      "GTA V" ∧
    compareGameLists [⟨"Grand Theft Auto V", none⟩] [⟨"GTA V", none⟩] =
      ⟨[⟨"Grand Theft Auto V", none⟩], [⟨"GTA V", none⟩], []⟩ := by
  constructor <;> decide

/-- C2 (code evaluated at the failing input): with the exemption list
containing `{backloggdTitle: "Call of Duty: Black Ops 6"}`,
`ManualAdditionsManager.isManuallyAdded` does report the title as exempt,
yet `compareGameLists` — which never consults the exemption set — places the
target entry into `gamesToRemove` when it is absent from the source list,
instead of suppressing it. -/
theorem compareGameLists_ignores_exemptions :
    isManuallyAdded [⟨"Call of Duty: Black Ops 6"⟩] "Call of Duty: Black Ops 6" =
      true ∧
    compareGameLists [] [⟨"Call of Duty: Black Ops 6", none⟩] =
      ⟨[], [⟨"Call of Duty: Black Ops 6", none⟩], []⟩ := by
  constructor <;> decide

/-- C10: if the effective alias-table entry for a title maps it to the empty
string, `mapPsStoreToBackloggd` (resp. `mapBackloggdToPsStore`) returns the
input title unchanged, because the lookup result is tested for truthiness
(`get(key) || title`) and the empty string is falsy. -/
theorem mapTitle_empty_string_falls_back (mappings : List GameTitleMapping)
    (t : String) :
    (jsMapGet (psStoreToBackloggd mappings) (lowerStr t) = some "" →
      mapPsStoreToBackloggd mappings t = t) ∧
    (jsMapGet (backloggdToPsStore mappings) (lowerStr t) = some "" →
      mapBackloggdToPsStore mappings t = t) := by
  constructor
  · intro h
    simp [mapPsStoreToBackloggd, jsOrElse, h]
  · intro h
    simp [mapBackloggdToPsStore, jsOrElse, h]

/-- Witness for C10: both fallbacks fire on concrete alias tables whose rows
map to the empty string. -/
theorem mapTitle_empty_string_falls_back_witness :
    mapPsStoreToBackloggd [⟨"Foo", ""⟩] "Foo" = "Foo" ∧
      mapBackloggdToPsStore [⟨"", "GTA V"⟩] "GTA V" = "GTA V" :=
  ⟨(mapTitle_empty_string_falls_back [⟨"Foo", ""⟩] "Foo").1 (by decide),
    (mapTitle_empty_string_falls_back [⟨"", "GTA V"⟩] "GTA V").2 (by decide)⟩

/-- C4: for every pair of input lists, `gamesToAdd` and `alreadyInSync` are
disjoint (their intersection is empty), and together they cover exactly the
source list — `gamesToAdd ++ alreadyInSync` is a permutation of the source
list. -/
theorem compareGameLists_partition (ps bg : List Game) :
    (compareGameLists ps bg).gamesToAdd ∩ (compareGameLists ps bg).alreadyInSync = [] ∧
      List.Perm
        ((compareGameLists ps bg).gamesToAdd ++ (compareGameLists ps bg).alreadyInSync)
        ps := by
  have hAdd : (compareGameLists ps bg).gamesToAdd =
      ps.filter (fun g => !(jsMapHas (buildTitleMap bg) (normalizeTitle g.title))) := rfl
  have hSync : (compareGameLists ps bg).alreadyInSync =
      ps.filter (fun g => jsMapHas (buildTitleMap bg) (normalizeTitle g.title)) := rfl
  constructor
  · rw [List.inter_eq_nil_iff_disjoint]
    intro a ha hb
    rw [hAdd] at ha
    rw [hSync] at hb
    have h1 := (List.mem_filter.mp ha).2
    have h2 := (List.mem_filter.mp hb).2
    rw [h2] at h1
    cases h1
  · rw [hAdd, hSync]
    exact List.Perm.trans List.perm_append_comm
      (List.filter_append_perm (fun g => jsMapHas (buildTitleMap bg) (normalizeTitle g.title)) ps)

theorem scrapeLoop_page_le (pages : Nat → List Game) (nav : Nat → Bool)
    (total : Option Nat) :
    ∀ (n : Nat) (allGames : List Game) (seen : List String) (cp : Nat),
      51 - cp ≤ n → cp ≤ 50 →
      (scrapeLoop pages nav total allGames seen cp).2 ≤ 51 := by
  intro n
  induction n with
  | zero =>
    intro allGames seen cp h1 h2
    omega
  | succ n ih =>
    intro allGames seen cp h1 h2
    rw [scrapeLoop]
    split
    · exact Nat.le_trans h2 (by omega)
    · split
      · split
        · next hgt => omega
        · next hle => exact ih _ _ (cp + 1) (by omega) (by omega)
      · exact Nat.le_trans h2 (by omega)

theorem mem_jsSetAdd {s : List String} {k x : String} :
    x ∈ jsSetAdd s k ↔ x ∈ s ∨ x = k := by
  unfold jsSetAdd
  by_cases h : s.contains k = true
  · rw [if_pos h]
    have hk : k ∈ s := by simpa using h
    constructor
    · exact fun hx => Or.inl hx
    · rintro (hx | rfl)
      · exact hx
      · exact hk
  · rw [if_neg h]
    simp

theorem filterNewGames_urls_nodup_fresh : ∀ (l : List Game) (seen : List String),
    ((filterNewGames l seen).1.filterMap Game.url).Nodup ∧
      ∀ u ∈ (filterNewGames l seen).1.filterMap Game.url, u ∉ seen := by
  intro l
  induction l with
  | nil =>
    intro seen
    exact ⟨List.nodup_nil, by simp [filterNewGames]⟩
  | cons g rest ih =>
    intro seen
    simp only [filterNewGames]
    by_cases ht : g.title = ""
    · rw [if_pos ht]
      exact ih seen
    · rw [if_neg ht]
      cases hu : g.url with
      | some u =>
        dsimp only
        by_cases hs : seen.contains u = true
        · rw [if_pos hs]
          exact ih seen
        · rw [if_neg hs]
          have huseen : u ∉ seen := by simpa using hs
          obtain ⟨ihn, ihf⟩ := ih (jsSetAdd seen u)
          constructor
          · simp only [List.filterMap_cons, hu, List.nodup_cons]
            refine ⟨fun hmem => ?_, ihn⟩
            exact ihf u hmem (mem_jsSetAdd.mpr (Or.inr rfl))
          · intro v hv
            simp only [List.filterMap_cons, hu, List.mem_cons] at hv
            rcases hv with rfl | hv
            · exact huseen
            · intro hvs
              exact ihf v hv (mem_jsSetAdd.mpr (Or.inl hvs))
      | none =>
        dsimp only
        obtain ⟨ihn, ihf⟩ := ih seen
        constructor
        · simpa only [List.filterMap_cons, hu] using ihn
        · intro v hv
          simp only [List.filterMap_cons, hu] at hv
          exact ihf v hv

theorem filterNewGames_seen_mono : ∀ (l : List Game) (seen : List String)
    (u : String), u ∈ seen → u ∈ (filterNewGames l seen).2 := by
  intro l
  induction l with
  | nil =>
    intro seen u hu
    simpa [filterNewGames] using hu
  | cons g rest ih =>
    intro seen u hu
    simp only [filterNewGames]
    by_cases ht : g.title = ""
    · rw [if_pos ht]
      exact ih seen u hu
    · rw [if_neg ht]
      cases hg : g.url with
      | some w =>
        dsimp only
        by_cases hs : seen.contains w = true
        · rw [if_pos hs]
          exact ih seen u hu
        · rw [if_neg hs]
          exact ih (jsSetAdd seen w) u (mem_jsSetAdd.mpr (Or.inl hu))
      | none =>
        dsimp only
        exact ih seen u hu

theorem filterNewGames_urls_in_seen : ∀ (l : List Game) (seen : List String)
    (u : String), u ∈ (filterNewGames l seen).1.filterMap Game.url →
    u ∈ (filterNewGames l seen).2 := by
  intro l
  induction l with
  | nil =>
    intro seen u hu
    simp [filterNewGames] at hu
  | cons g rest ih =>
    intro seen u hu
    simp only [filterNewGames] at hu ⊢
    by_cases ht : g.title = ""
    · rw [if_pos ht] at hu ⊢
      exact ih seen u hu
    · rw [if_neg ht] at hu ⊢
      cases hg : g.url with
      | some w =>
        rw [hg] at hu
        dsimp only at hu ⊢
        by_cases hs : seen.contains w = true
        · rw [if_pos hs] at hu ⊢
          exact ih seen u hu
        · rw [if_neg hs] at hu ⊢
          simp only [List.filterMap_cons, hg, List.mem_cons] at hu
          rcases hu with rfl | hu
          · exact filterNewGames_seen_mono rest (jsSetAdd seen u) u
              (mem_jsSetAdd.mpr (Or.inr rfl))
          · exact ih (jsSetAdd seen w) u hu
      | none =>
        rw [hg] at hu
        dsimp only at hu ⊢
        simp only [List.filterMap_cons, hg] at hu
        exact ih seen u hu

theorem scrapeStep_urls (allGames : List Game) (seen : List String)
    (pg : List Game)
    (hnd : (allGames.filterMap Game.url).Nodup)
    (hsub : ∀ u ∈ allGames.filterMap Game.url, u ∈ seen) :
    (((allGames ++ (filterNewGames pg seen).1).filterMap Game.url).Nodup) ∧
      ∀ u ∈ (allGames ++ (filterNewGames pg seen).1).filterMap Game.url,
        u ∈ (filterNewGames pg seen).2 := by
  rw [List.filterMap_append]
  constructor
  · refine List.Nodup.append hnd (filterNewGames_urls_nodup_fresh pg seen).1 ?_
    intro u hu1 hu2
    exact (filterNewGames_urls_nodup_fresh pg seen).2 u hu2 (hsub u hu1)
  · intro u hu
    rcases List.mem_append.mp hu with h | h
    · exact filterNewGames_seen_mono pg seen u (hsub u h)
    · exact filterNewGames_urls_in_seen pg seen u h

theorem scrapeLoop_urls_nodup (pages : Nat → List Game) (nav : Nat → Bool)
    (total : Option Nat) :
    ∀ (n : Nat) (allGames : List Game) (seen : List String) (cp : Nat),
      51 - cp ≤ n →
      (allGames.filterMap Game.url).Nodup →
      (∀ u ∈ allGames.filterMap Game.url, u ∈ seen) →
      ((scrapeLoop pages nav total allGames seen cp).1.filterMap Game.url).Nodup := by
  intro n
  induction n with
  | zero =>
    intro allGames seen cp h1 hnd hsub
    rw [scrapeLoop]
    split
    · exact (scrapeStep_urls allGames seen (pages cp) hnd hsub).1
    · split
      · split
        · exact (scrapeStep_urls allGames seen (pages cp) hnd hsub).1
        · next hle => omega
      · exact (scrapeStep_urls allGames seen (pages cp) hnd hsub).1
  | succ n ih =>
    intro allGames seen cp h1 hnd hsub
    rw [scrapeLoop]
    split
    · exact (scrapeStep_urls allGames seen (pages cp) hnd hsub).1
    · split
      · split
        · exact (scrapeStep_urls allGames seen (pages cp) hnd hsub).1
        · next hle =>
          exact ih _ _ (cp + 1) (by omega)
            (scrapeStep_urls allGames seen (pages cp) hnd hsub).1
            (scrapeStep_urls allGames seen (pages cp) hnd hsub).2
      · exact (scrapeStep_urls allGames seen (pages cp) hnd hsub).1

/-- C3 amended: in the collected result of one `scrapeBackloggdList`
traversal, no two entries that both carry a URL share that URL — the URLs of
the result, with URL-less entries skipped, are pairwise distinct.  (URL-less
entries are not deduplicated at all; see the counterexample.) -/
theorem scrapeBackloggdList_urls_nodup (pages : Nat → List Game)
    (nav : Nat → Bool) (total : Option Nat) :
    ((scrapeBackloggdList pages nav total).1.filterMap Game.url).Nodup := by
  have h := scrapeLoop_urls_nodup pages nav total 50 [] [] 1 (by omega)
    (by simp) (by simp)
  have hsub : (scrapeBackloggdList pages nav total).1.Sublist
      (scrapeLoop pages nav total [] [] 1).1 := List.filter_sublist _
  exact List.Nodup.sublist (List.Sublist.filterMap Game.url hsub) h

/-- C3 counterexample: a traversal whose page yields two distinct positions
holding URL-less entries with the same title collects both; they share the
identity key `normalizeTitle "Mario"`, so the dedup invariant stated over
identity keys (URL when present, else normalized title) fails. -/
theorem scrapeBackloggdList_identity_key_counterexample :
    ¬ List.Pairwise (fun a b => identityKey a ≠ identityKey b)
      (scrapeBackloggdList (fun _ => [⟨"Mario", none⟩, ⟨"Mario", none⟩])
        (fun _ => false) none).1 := by
  intro hpw
  have hres : (scrapeBackloggdList (fun _ => [⟨"Mario", none⟩, ⟨"Mario", none⟩])
      (fun _ => false) none).1 = [⟨"Mario", none⟩, ⟨"Mario", none⟩] := by
    rw [scrapeBackloggdList, scrapeLoop]
    decide
  rw [hres] at hpw
  exact (List.pairwise_cons.mp hpw).1 ⟨"Mario", none⟩ (by simp) rfl

/-- C5: every traversal of the `scrapeBackloggdList` pagination loop
terminates (the loop is a total function of the abstracted page inputs), and
the final `currentPage` never exceeds 50 + 1: once `currentPage` passes the
safety ceiling of 50 the loop stops regardless of completion state. -/
theorem scrapeBackloggdList_page_bound (pages : Nat → List Game)
    (nav : Nat → Bool) (total : Option Nat) :
    (scrapeBackloggdList pages nav total).2 ≤ 51 := by
  show (scrapeLoop pages nav total [] [] 1).2 ≤ 51
  exact scrapeLoop_page_le pages nav total 50 [] [] 1 (by omega) (by omega)

/-! ### URL computation lemmas (towards C6 and C7) -/

theorem isPrefixOf_append_self (l t : List Char) : l.isPrefixOf (l ++ t) = true := by
  rw [List.isPrefixOf_iff_prefix]
  exact l.prefix_append t

theorem listContains_append_self (pre pat rest : List Char) :
    listContains pat (pre ++ (pat ++ rest)) = true := by
  induction pre with
  | nil =>
    rw [List.nil_append]
    cases hpr : pat ++ rest with
    | nil =>
      have hp : pat = [] := (List.append_eq_nil.mp hpr).1
      simp [listContains, hp]
    | cons c l' =>
      rw [listContains, ← hpr, isPrefixOf_append_self]
      simp
  | cons c pre' ih =>
    rw [List.cons_append, listContains, ih]
    simp

theorem takeWhile_append_all {p : Char → Bool} : ∀ {l1 : List Char}
    (l2 : List Char), (∀ c ∈ l1, p c = true) →
    (l1 ++ l2).takeWhile p = l1 ++ l2.takeWhile p := by
  intro l1
  induction l1 with
  | nil => intro l2 _; rfl
  | cons c r ih =>
    intro l2 h
    have hc : p c = true := h c (List.mem_cons_self c r)
    simp [List.takeWhile_cons, hc,
      ih l2 (fun a ha => h a (List.mem_cons.mpr (Or.inr ha)))]

theorem dropWhile_append_all {p : Char → Bool} : ∀ {l1 : List Char}
    (l2 : List Char), (∀ c ∈ l1, p c = true) →
    (l1 ++ l2).dropWhile p = l2.dropWhile p := by
  intro l1
  induction l1 with
  | nil => intro l2 _; rfl
  | cons c r ih =>
    intro l2 h
    have hc : p c = true := h c (List.mem_cons_self c r)
    simp [List.dropWhile_cons, hc,
      ih l2 (fun a ha => h a (List.mem_cons.mpr (Or.inr ha)))]

theorem dropWhile_head_not {p : Char → Bool} : ∀ {l : List Char},
    (∀ c, l.head? = some c → p c = false) → l.dropWhile p = l := by
  intro l h
  cases l with
  | nil => rfl
  | cons c r =>
    simp [List.dropWhile_cons, h c rfl]

theorem replaceTokenNum_seam : ∀ (pre : List Char) (a : Char)
    (lit' newNum ds post : List Char),
    (∀ i, i < pre.length →
      (a :: lit').isPrefixOf ((pre ++ ((a :: lit') ++ (ds ++ post))).drop i) = false) →
    ds ≠ [] → (∀ c ∈ ds, isDigitChar c = true) →
    (∀ c, post.head? = some c → isDigitChar c = false) →
    replaceTokenNum (a :: lit') newNum (pre ++ ((a :: lit') ++ (ds ++ post))) =
      pre ++ ((a :: lit') ++ (newNum ++ post)) := by
  intro pre
  induction pre with
  | nil =>
    intro a lit' newNum ds post _ hds hdig hpost
    rw [List.nil_append, List.nil_append, List.cons_append, replaceTokenNum,
      ← List.cons_append]
    have hpre : (a :: lit').isPrefixOf ((a :: lit') ++ (ds ++ post)) = true :=
      isPrefixOf_append_self _ _
    have hdrop : ((a :: lit') ++ (ds ++ post)).drop (a :: lit').length = ds ++ post :=
      List.drop_left _ _
    have hdw : (ds ++ post).dropWhile isDigitChar = post := by
      rw [dropWhile_append_all post hdig, dropWhile_head_not hpost]
    have htwne : ((ds ++ post).takeWhile isDigitChar).isEmpty = false := by
      rw [takeWhile_append_all post hdig]
      cases ds with
      | nil => exact absurd rfl hds
      | cons d dr => rfl
    rw [hpre, hdrop, htwne, hdw]
    simp
  | cons c pre' ih =>
    intro a lit' newNum ds post hpre hds hdig hpost
    rw [List.cons_append, replaceTokenNum]
    have h0 : (a :: lit').isPrefixOf (c :: (pre' ++ ((a :: lit') ++ (ds ++ post)))) = false := by
      have := hpre 0 (by simp)
      simpa using this
    rw [h0]
    have hpre' : ∀ i, i < pre'.length →
        (a :: lit').isPrefixOf ((pre' ++ ((a :: lit') ++ (ds ++ post))).drop i) = false := by
      intro i hi
      have := hpre (i + 1) (by simpa using Nat.succ_lt_succ hi)
      simpa [List.drop_succ_cons] using this
    rw [if_neg (by simp)]
    have hih := ih a lit' newNum ds post hpre' hds hdig hpost
    simp only [List.cons_append] at hih
    simp [hih]

theorem reverse_path_append (base ds : List Char) :
    (base ++ '/' :: ds).reverse = ds.reverse ++ '/' :: base.reverse := by
  rw [List.reverse_append, List.reverse_cons, List.append_assoc]
  rfl

theorem revStripSlash_path_append (base ds : List Char) (hds : ds ≠ [])
    (hdig : ∀ c ∈ ds, isDigitChar c = true) :
    revStripSlash (base ++ '/' :: ds) = ds.reverse ++ '/' :: base.reverse := by
  obtain ⟨d, dr, hrev⟩ : ∃ d dr, ds.reverse = d :: dr := by
    cases h : ds.reverse with
    | nil => exact absurd (List.reverse_eq_nil_iff.mp h) hds
    | cons d dr => exact ⟨d, dr, rfl⟩
  have hd : isDigitChar d = true := by
    refine hdig d (List.mem_reverse.mp ?_)
    rw [hrev]
    exact List.mem_cons_self d dr
  unfold revStripSlash
  rw [reverse_path_append, hrev]
  have hhead : ¬((d :: dr ++ '/' :: base.reverse).head? = some '/') := by
    simp only [List.cons_append, List.head?_cons, Option.some.injEq]
    intro h
    rw [h] at hd
    exact absurd hd (by decide)
  rw [if_neg hhead]

theorem path_digits_take_drop (base ds : List Char) (hds : ds ≠ [])
    (hdig : ∀ c ∈ ds, isDigitChar c = true) :
    ((ds.reverse ++ '/' :: base.reverse).takeWhile isDigitChar = ds.reverse) ∧
    ((ds.reverse ++ '/' :: base.reverse).dropWhile isDigitChar =
      '/' :: base.reverse) := by
  have hdigrev : ∀ c ∈ ds.reverse, isDigitChar c = true := by
    intro c hc
    exact hdig c (List.mem_reverse.mp hc)
  have hslash : isDigitChar '/' = false := by decide
  constructor
  · rw [takeWhile_append_all _ hdigrev, List.takeWhile_cons, hslash]
    simp
  · rw [dropWhile_append_all _ hdigrev, List.dropWhile_cons, hslash]
    simp

theorem pathPaginationTest_append_digits (base ds : List Char) (hds : ds ≠ [])
    (hdig : ∀ c ∈ ds, isDigitChar c = true) :
    pathPaginationTest (base ++ '/' :: ds) = true := by
  obtain ⟨d, dr, hrev⟩ : ∃ d dr, ds.reverse = d :: dr := by
    cases h : ds.reverse with
    | nil => exact absurd (List.reverse_eq_nil_iff.mp h) hds
    | cons d dr => exact ⟨d, dr, rfl⟩
  obtain ⟨htw, hdw⟩ := path_digits_take_drop base ds hds hdig
  unfold pathPaginationTest
  rw [revStripSlash_path_append base ds hds hdig, htw, hdw, hrev]
  simp

theorem replaceTrailingPathNum_append (base ds newNum : List Char)
    (hds : ds ≠ []) (hdig : ∀ c ∈ ds, isDigitChar c = true) :
    replaceTrailingPathNum (base ++ '/' :: ds) newNum = base ++ newNum := by
  obtain ⟨_, hdw⟩ := path_digits_take_drop base ds hds hdig
  unfold replaceTrailingPathNum
  rw [revStripSlash_path_append base ds hds hdig, hdw]
  simp

/-- C6 counterexample: at page counter 5, the URL
`https://ex.com/list?offset=0` is mapped to `offset=144` — the computed
offset is `(currentPage + 1) * 24 = 144`, not the existing offset
incremented by the page size (`0 + 24 = 24`). -/
theorem computeNextUrl_offset_counterexample :
    computeNextUrl "https://ex.com/list?offset=0" 5 =
        "https://ex.com/list?offset=144" ∧
      computeNextUrl "https://ex.com/list?offset=0" 5 ≠
        "https://ex.com/list?offset=24" := by
  constructor <;> decide

/-- C6 amended: under the `UrlParam` strategy, for a current URL whose first
`offset=<digits>` occurrence follows the prefix `pre` (and which carries no
`page=`), `navigateToNextPage` computes the next URL by replacing the offset
digits with `(currentPage + 1) * 24` — the fixed page size 24 times the next
page counter, regardless of the existing offset value. -/
theorem computeNextUrl_offset_amended (pre ds post : List Char) (cp : Nat)
    (hpage : listContains "page=".data (pre ++ ("offset=".data ++ (ds ++ post))) = false)
    (hfirst : ∀ i, i < pre.length →
      "offset=".data.isPrefixOf ((pre ++ ("offset=".data ++ (ds ++ post))).drop i) = false)
    (hds : ds ≠ []) (hdig : ∀ c ∈ ds, isDigitChar c = true)
    (hpost : ∀ c, post.head? = some c → isDigitChar c = false) :
    computeNextUrl ⟨pre ++ ("offset=".data ++ (ds ++ post))⟩ cp =
      ⟨pre ++ ("offset=".data ++ ((toString ((cp + 1) * 24)).data ++ post))⟩ := by
  unfold computeNextUrl containsSub
  dsimp only
  rw [hpage, if_neg (by simp),
    listContains_append_self pre "offset=".data (ds ++ post), if_pos rfl]
  refine congrArg String.mk ?_
  have hseam := replaceTokenNum_seam pre 'o' "ffset=".data
    (toString ((cp + 1) * 24)).data ds post hfirst hds hdig hpost
  exact hseam

/-- Witness for C6: the amended theorem applied to the URL
`https://ex.com/list?offset=0` at page counter 5. -/
theorem computeNextUrl_offset_amended_witness :
    computeNextUrl ⟨"https://ex.com/list?".data ++ ("offset=".data ++ (['0'] ++ []))⟩ 5 =
      ⟨"https://ex.com/list?".data ++ ("offset=".data ++ ((toString ((5 + 1) * 24)).data ++ []))⟩ :=
  computeNextUrl_offset_amended "https://ex.com/list?".data ['0'] [] 5
    (by decide) (by decide) (by decide) (by decide) (by decide)

/-- C7 counterexample: for the URL `.../category/abc/3` the trailing path
segment is replaced by `currentPage + 1`, not by the segment incremented:
with the page counter at 7 the next URL is `.../category/abc/8`, not
`.../category/abc/4`. -/
theorem computeNextUrl_path_counterexample :
    computeNextUrl "https://store.playstation.com/es-es/category/abc/3" 7 =
        "https://store.playstation.com/es-es/category/abc/8" ∧
      computeNextUrl "https://store.playstation.com/es-es/category/abc/3" 7 ≠
        "https://store.playstation.com/es-es/category/abc/4" := by
  constructor <;> decide

/-- C7 amended: for every current URL with no `page=`/`offset=` query
parameter and a trailing numeric path segment, the pagination strategy is
detected as `UrlParam` (`'url'`), and the next URL computed by
`navigateToNextPage` is the same URL with the trailing segment replaced by
`currentPage + 1` (which equals `n + 1` exactly when the controller's page
counter equals the trailing number `n`, as in a traversal that started on
that page). -/
theorem detect_and_computeNextUrl_path_amended (base ds : List Char) (cp : Nat)
    (nextButtonVisible : Bool)
    (hpage : listContains "page=".data (base ++ '/' :: ds) = false)
    (hoffset : listContains "offset=".data (base ++ '/' :: ds) = false)
    (hds : ds ≠ []) (hdig : ∀ c ∈ ds, isDigitChar c = true) :
    detectPaginationType ⟨base ++ '/' :: ds⟩ nextButtonVisible = .url ∧
      computeNextUrl ⟨base ++ '/' :: ds⟩ cp =
        ⟨base ++ '/' :: (toString (cp + 1)).data⟩ := by
  have hpath := pathPaginationTest_append_digits base ds hds hdig
  constructor
  · unfold detectPaginationType containsSub
    dsimp only
    rw [hpage, hoffset]
    rw [if_neg (by simp), if_pos (by rw [hpath])]
  · unfold computeNextUrl containsSub
    dsimp only
    rw [hpage, if_neg (by simp), hoffset, if_neg (by simp),
      if_pos (by rw [hpath])]
    refine congrArg String.mk ?_
    have hrepl := replaceTrailingPathNum_append base ds
      ("/" ++ toString (cp + 1)).data hds hdig
    rw [hrepl, String.data_append]
    rfl

/-- Witness for C7: the amended theorem applied to the URL
`https://store.playstation.com/es-es/category/abc/3` at page counter 3,
yielding `.../abc/4`. -/
theorem detect_and_computeNextUrl_path_amended_witness :
    detectPaginationType
        ⟨"https://store.playstation.com/es-es/category/abc".data ++ '/' :: ['3']⟩ false =
      .url ∧
    computeNextUrl
        ⟨"https://store.playstation.com/es-es/category/abc".data ++ '/' :: ['3']⟩ 3 =
      ⟨"https://store.playstation.com/es-es/category/abc".data ++ '/' :: (toString (3 + 1)).data⟩ :=
  detect_and_computeNextUrl_path_amended
    "https://store.playstation.com/es-es/category/abc".data ['3'] 3 false
    (by decide) (by decide) (by decide) (by decide)

end PS5Pro